import Mathlib

/-!
# Verification of the firebase-financial-data-platform ingestion pipeline

Shallow embedding of the enrichment / correlation pipeline and of the
resilient HTTP layer of the repository.  JavaScript numbers are modelled
as rationals (`ℚ`), strings as Lean `String` / `List Char`, timestamps
(`new Date(x).getTime()`) as integers, optional fields as `Option`.

The sources embedded here:
* `functions/src/processing/sentimentAnalysis.ts`
  (`categorizeSentiment`, `enrichStockData`, `correlateNewsWithMarketMovements`)
* the axios utility module (`apiRequest`, `shouldRetry`, `batchRequests`)
* the ticker-association module (`identifyStocksInNews`)
* `functions/src/scheduled/newsFetcher.ts`
  (URL deduplication loop, relevance scoring, relevance filtering)
-/

namespace FinPlatform

/-- Sentiment categories returned by `categorizeSentiment`. -/
inductive SentimentCategory where
  | veryNegative
  | negative
  | neutral
  | positive
  | veryPositive
deriving Repr, DecidableEq

open SentimentCategory

/-- Embeds `categorizeSentiment` from `sentimentAnalysis.ts`:
`if (score <= -0.6) return "very negative"; if (score <= -0.2) return "negative";
if (score >= 0.6) return "very positive"; if (score >= 0.2) return "positive";
return "neutral";` -/
def categorizeSentiment (score : ℚ) : SentimentCategory :=
  if score ≤ -(6/10 : ℚ) then veryNegative
  else if score ≤ -(2/10 : ℚ) then negative
  else if score ≥ (6/10 : ℚ) then veryPositive
  else if score ≥ (2/10 : ℚ) then positive
  else neutral

end FinPlatform

namespace FinPlatform

/-- C4: `categorizeSentiment` is total and deterministic (it is a Lean
function), and its five categories are characterised by the claimed
intervals, except that the boundary `-0.2` falls in `negative` (the more
extreme category), not in `neutral`. -/
theorem categorizeSentiment_intervals (score : ℚ) :
    (categorizeSentiment score = SentimentCategory.veryNegative ↔ score ≤ -(6/10)) ∧
    (categorizeSentiment score = SentimentCategory.negative ↔
      -(6/10) < score ∧ score ≤ -(2/10)) ∧
    (categorizeSentiment score = SentimentCategory.neutral ↔
      -(2/10) < score ∧ score < 2/10) ∧
    (categorizeSentiment score = SentimentCategory.positive ↔
      2/10 ≤ score ∧ score < 6/10) ∧
    (categorizeSentiment score = SentimentCategory.veryPositive ↔ 6/10 ≤ score) := by
  unfold categorizeSentiment
  split
  · refine ⟨by simp_all, ?_, ?_, ?_, ?_⟩ <;>
      constructor <;> intro h <;> simp_all <;> linarith
  · split
    · refine ⟨?_, ?_, ?_, ?_, ?_⟩ <;> constructor <;> intro h <;> simp_all <;> linarith
    · split
      · refine ⟨?_, ?_, ?_, ?_, ?_⟩ <;> constructor <;> intro h <;> simp_all <;> linarith
      · split
        · refine ⟨?_, ?_, ?_, ?_, ?_⟩ <;> constructor <;> intro h <;> simp_all <;> linarith
        · refine ⟨?_, ?_, ?_, ?_, ?_⟩ <;> constructor <;> intro h <;> simp_all <;> linarith

/-- C4 counterexample: the claim asserts that every score in `[-0.2, 0.2)` is
mapped to `neutral`; at the boundary score `-0.2` the code returns
`negative`, not `neutral`. -/
theorem categorizeSentiment_neg_boundary :
    categorizeSentiment (-(2/10)) = SentimentCategory.negative ∧
    categorizeSentiment (-(2/10)) ≠ SentimentCategory.neutral := by
  unfold categorizeSentiment
  norm_num
  decide

/-! ## The axios utility module: `apiRequest`, `shouldRetry`, `batchRequests` -/

/-- The `error.response` object of a failed axios call: present only when an
HTTP response was received. -/
structure ErrorResponse where
  status : Nat
deriving Repr, DecidableEq

/-- An axios error: `response` is `none` on transport failure (no response
received). -/
structure ApiError where
  response : Option ErrorResponse
deriving Repr, DecidableEq

/-- Embeds `shouldRetry` from the axios utility module:
retry on network errors (`!error.response`), on status 429 and on
status ≥ 500. -/
def shouldRetry (error : ApiError) : Bool :=
  match error.response with
  | none => true
  | some r => r.status == 429 || decide (500 ≤ r.status)

/-- The claim's wording of the retry condition: transport failure (no
response received), or HTTP status 429 or ≥ 500. -/
def RetryableError (e : ApiError) : Prop :=
  e.response = none ∨ ∃ r, e.response = some r ∧ (r.status = 429 ∨ 500 ≤ r.status)

instance (e : ApiError) : Decidable (RetryableError e) := by
  unfold RetryableError; infer_instance

/-- Embeds `apiRequest` from the axios utility module.  The `oracle` gives the
outcome of the `k`-th underlying `axios(config)` call (the network is the
only non-determinism); `attempt` is the index of the next call, `retries`
the remaining retry budget.  Returns the final outcome (`Except.error` models
the rethrown error) paired with the number of axios calls made.  The backoff
delay (`retryDelay * 1.5` per retry) only affects timing and is not modelled. -/
def apiRequestFrom {α : Type} (oracle : Nat → Except ApiError α)
    (attempt retries : Nat) : Except ApiError α × Nat :=
  match oracle attempt with
  | Except.ok resp => (Except.ok resp, 1)
  | Except.error e =>
    match retries with
    | r + 1 =>
      if shouldRetry e then
        let res := apiRequestFrom oracle (attempt + 1) r
        (res.1, res.2 + 1)
      else (Except.error e, 1)
    | 0 => (Except.error e, 1)

/-- `apiRequest(config, retries)`: the retry loop started at the first
axios call. -/
def apiRequest {α : Type} (oracle : Nat → Except ApiError α)
    (retries : Nat) : Except ApiError α × Nat :=
  apiRequestFrom oracle 0 retries

/-- Embeds `batchRequests` from the axios utility module: the loop
`for (i = 0; i < requests.length; i += batchSize)` processes consecutive
`slice(i, i + batchSize)` chunks; within a chunk, `Promise.all` keeps input
order and `.catch(() => null)` maps a per-request failure to `null`.
`exec req = none` models `apiRequest(req)` rejecting after its retries.
`fuel` bounds the number of loop iterations (it is instantiated with
`requests.length`, which suffices whenever `batchSize > 0`; with
`batchSize = 0` the JavaScript loop would not terminate either). -/
def batchChunks {ρ α : Type} (exec : ρ → Option α) (batchSize : Nat) :
    Nat → List ρ → List (Option α)
  | _, [] => []
  | 0, _ :: _ => []
  | fuel + 1, r :: rest =>
    ((r :: rest).take batchSize).map exec ++
      batchChunks exec batchSize fuel ((r :: rest).drop batchSize)

/-- `batchRequests(requests, batchSize)` with the per-request `exec`
semantics described at `batchChunks`. -/
def batchRequests {ρ α : Type} (exec : ρ → Option α) (requests : List ρ)
    (batchSize : Nat) : List (Option α) :=
  batchChunks exec batchSize requests.length requests

theorem batchChunks_eq_map {ρ α : Type} (exec : ρ → Option α) (batchSize : Nat)
    (hbs : 0 < batchSize) :
    ∀ (fuel : Nat) (l : List ρ), l.length ≤ fuel →
      batchChunks exec batchSize fuel l = l.map exec := by
  intro fuel
  induction fuel with
  | zero =>
    intro l hl
    match l with
    | [] => rfl
    | _ :: _ => simp at hl
  | succ n ih =>
    intro l hl
    match l with
    | [] => rfl
    | r :: rest =>
      have hdrop : ((r :: rest).drop batchSize).length ≤ n := by
        simp only [List.length_drop, List.length_cons] at *
        omega
      rw [batchChunks, ih _ hdrop, ← List.map_append, List.take_append_drop]

theorem shouldRetry_iff_retryable (e : ApiError) :
    shouldRetry e = true ↔ RetryableError e := by
  unfold shouldRetry RetryableError
  match h : e.response with
  | none => simp
  | some r =>
    simp only [Bool.or_eq_true, beq_iff_eq, decide_eq_true_eq]
    constructor
    · rintro (h429 | h500)
      · exact Or.inr ⟨r, rfl, Or.inl h429⟩
      · exact Or.inr ⟨r, rfl, Or.inr h500⟩
    · rintro (hnone | ⟨r', hr', hst⟩)
      · simp at hnone
      · cases hr'
        exact hst

theorem apiRequestFrom_ok {α : Type} {oracle : Nat → Except ApiError α}
    {attempt : Nat} {v : α} (retries : Nat) (h : oracle attempt = Except.ok v) :
    apiRequestFrom oracle attempt retries = (Except.ok v, 1) := by
  unfold apiRequestFrom
  rw [h]

theorem apiRequestFrom_error_noretry {α : Type} {oracle : Nat → Except ApiError α}
    {attempt : Nat} {e : ApiError} (retries : Nat)
    (he : oracle attempt = Except.error e) (hs : shouldRetry e = false) :
    apiRequestFrom oracle attempt retries = (Except.error e, 1) := by
  unfold apiRequestFrom
  rw [he]
  cases retries with
  | zero => rfl
  | succ r =>
    dsimp only
    rw [if_neg (by simp [hs])]

theorem apiRequestFrom_error_retry {α : Type} {oracle : Nat → Except ApiError α}
    {attempt : Nat} {e : ApiError} (r : Nat)
    (he : oracle attempt = Except.error e) (hs : shouldRetry e = true) :
    apiRequestFrom oracle attempt (r + 1) =
      ((apiRequestFrom oracle (attempt + 1) r).1,
        (apiRequestFrom oracle (attempt + 1) r).2 + 1) := by
  conv_lhs => unfold apiRequestFrom
  rw [he]
  dsimp only
  rw [if_pos hs]

theorem apiRequestFrom_attempts_le {α : Type} (oracle : Nat → Except ApiError α) :
    ∀ (retries attempt : Nat),
      (apiRequestFrom oracle attempt retries).2 ≤ 1 + retries := by
  intro retries
  induction retries with
  | zero =>
    intro attempt
    cases h : oracle attempt with
    | ok v => rw [apiRequestFrom_ok 0 h]
    | error e =>
      cases hs : shouldRetry e with
      | true =>
        unfold apiRequestFrom
        rw [h]
      | false => rw [apiRequestFrom_error_noretry 0 h hs]
  | succ r ih =>
    intro attempt
    cases h : oracle attempt with
    | ok v =>
      rw [apiRequestFrom_ok (r + 1) h]
      omega
    | error e =>
      cases hs : shouldRetry e with
      | true =>
        rw [apiRequestFrom_error_retry r h hs]
        have := ih (attempt + 1)
        dsimp only
        omega
      | false =>
        rw [apiRequestFrom_error_noretry (r + 1) h hs]
        omega

theorem apiRequestFrom_exhaust {α : Type} (oracle : Nat → Except ApiError α) :
    ∀ (retries attempt : Nat),
      (∀ k, k ≤ retries →
        ∃ e, oracle (attempt + k) = Except.error e ∧ shouldRetry e = true) →
      ∃ e, oracle (attempt + retries) = Except.error e ∧
        apiRequestFrom oracle attempt retries = (Except.error e, retries + 1) := by
  intro retries
  induction retries with
  | zero =>
    intro attempt h
    obtain ⟨e, he, _⟩ := h 0 le_rfl
    rw [Nat.add_zero] at he
    refine ⟨e, by rw [Nat.add_zero]; exact he, ?_⟩
    unfold apiRequestFrom
    rw [he]
  | succ r ih =>
    intro attempt h
    obtain ⟨e0, he0, hs0⟩ := h 0 (Nat.zero_le _)
    rw [Nat.add_zero] at he0
    have hshift : ∀ k, k ≤ r →
        ∃ e, oracle (attempt + 1 + k) = Except.error e ∧ shouldRetry e = true := by
      intro k hk
      have := h (k + 1) (by omega)
      rwa [show attempt + (k + 1) = attempt + 1 + k by omega] at this
    obtain ⟨e, he, hres⟩ := ih (attempt + 1) hshift
    refine ⟨e, ?_, ?_⟩
    · rwa [show attempt + (r + 1) = attempt + 1 + r by omega]
    · rw [apiRequestFrom_error_retry r he0 hs0, hres]

end FinPlatform

namespace FinPlatform

/-- C3: `apiRequest` (a) retries exactly on retryable errors, where
`shouldRetry` holds precisely for transport failures (no response) and
statuses 429 / ≥ 500; (b) makes at most `1 + retries` axios calls; (c) on a
first error that is not retryable it fails immediately after a single call,
returning that error, for any retry budget; (d) on a first retryable error
with budget left it performs the retry (continuing from the next axios
call with one unit of budget spent); (e) when every attempt fails with a
retryable error the last error (that of attempt `retries`) is rethrown
after exactly `1 + retries` calls. -/
theorem apiRequest_retry_policy {α : Type} (oracle : Nat → Except ApiError α)
    (retries : Nat) :
    (∀ e, shouldRetry e = true ↔ RetryableError e) ∧
    ((apiRequest oracle retries).2 ≤ 1 + retries) ∧
    (∀ e, oracle 0 = Except.error e → ¬ RetryableError e →
      apiRequest oracle retries = (Except.error e, 1)) ∧
    (∀ e r, oracle 0 = Except.error e → RetryableError e → retries = r + 1 →
      apiRequest oracle retries =
        ((apiRequestFrom oracle 1 r).1, (apiRequestFrom oracle 1 r).2 + 1)) ∧
    ((∀ k, k ≤ retries → ∃ e, oracle k = Except.error e ∧ RetryableError e) →
      ∃ e, oracle retries = Except.error e ∧
        apiRequest oracle retries = (Except.error e, retries + 1)) := by
  refine ⟨shouldRetry_iff_retryable, apiRequestFrom_attempts_le oracle retries 0,
    ?_, ?_, ?_⟩
  · intro e he hnr
    have hs : shouldRetry e = false := by
      cases hval : shouldRetry e
      · rfl
      · exact absurd ((shouldRetry_iff_retryable e).mp hval) hnr
    unfold apiRequest
    exact apiRequestFrom_error_noretry retries he hs
  · intro e r he hr hrt
    have hs : shouldRetry e = true := (shouldRetry_iff_retryable e).mpr hr
    subst hrt
    unfold apiRequest
    rw [apiRequestFrom_error_retry r he hs]
  · intro hall
    have hall' : ∀ k, k ≤ retries →
        ∃ e, oracle (0 + k) = Except.error e ∧ shouldRetry e = true := by
      intro k hk
      obtain ⟨e, he, hr⟩ := hall k hk
      exact ⟨e, by rwa [Nat.zero_add], (shouldRetry_iff_retryable e).mpr hr⟩
    obtain ⟨e, he, hres⟩ := apiRequestFrom_exhaust oracle retries 0 hall'
    rw [Nat.zero_add] at he
    exact ⟨e, he, hres⟩

/-- C3 witness: with every axios call failing at HTTP 500 and a budget of 3
retries, `apiRequest` makes 4 calls and rethrows the last 500 error; the
call-count bound and the exhaustion conjunct of the policy theorem are
instantiated concretely. -/
theorem apiRequest_retry_policy_witness :
    apiRequest (fun _ => Except.error ⟨some ⟨500⟩⟩ : Nat → Except ApiError Nat) 3 =
      (Except.error ⟨some ⟨500⟩⟩, 4) ∧
    (apiRequest (fun _ => Except.error ⟨some ⟨500⟩⟩ : Nat → Except ApiError Nat) 3).2 ≤
      1 + 3 := by
  have h := apiRequest_retry_policy
    (fun _ => Except.error ⟨some ⟨500⟩⟩ : Nat → Except ApiError Nat) 3
  obtain ⟨e, he, heq⟩ := h.2.2.2.2 (by
    intro k _
    exact ⟨⟨some ⟨500⟩⟩, rfl, Or.inr ⟨⟨500⟩, rfl, Or.inr (by norm_num)⟩⟩)
  have he' : e = ⟨some ⟨500⟩⟩ := by
    simpa using he.symm
  subst he'
  exact ⟨heq, h.2.1⟩

end FinPlatform

namespace FinPlatform

/-- C2: for every execution function and request list, with a positive batch
size the output of `batchRequests` has the same length as the input, the
entry at position `i` is the result of executing the request at position
`i` (so a request failing after retries yields `none`/`null` exactly at its
own position and no other position is affected), and in fact the whole
output is the pointwise image of the input. -/
theorem batchRequests_pointwise {ρ α : Type} (exec : ρ → Option α)
    (requests : List ρ) (batchSize : Nat) (hbs : 0 < batchSize) :
    batchRequests exec requests batchSize = requests.map exec ∧
    (batchRequests exec requests batchSize).length = requests.length ∧
    (∀ i : Nat, (batchRequests exec requests batchSize)[i]? =
      (requests[i]?).map exec) ∧
    (∀ i : Nat, ∀ req : ρ, requests[i]? = some req → exec req = none →
      (batchRequests exec requests batchSize)[i]? = some none) := by
  have heq : batchRequests exec requests batchSize = requests.map exec :=
    batchChunks_eq_map exec batchSize hbs requests.length requests le_rfl
  refine ⟨heq, ?_, ?_, ?_⟩
  · rw [heq, List.length_map]
  · intro i
    rw [heq, List.getElem?_map]
  · intro i req hreq hfail
    rw [heq, List.getElem?_map, hreq, Option.map_some', hfail]

/-- C2 witness: a concrete batch of four requests over `exec = id` on
`Option Nat` with `batchSize = 3`; the failing second request yields `none`
at index 1 and the other three positions are the successful results. -/
theorem batchRequests_pointwise_witness :
    (0 < 3) ∧
    batchRequests (fun r => r) [some 10, none, some 30, some 40] 3 =
      [some 10, none, some 30, some 40] := by
  refine ⟨by decide, ?_⟩
  have h := batchRequests_pointwise (fun r : Option Nat => r)
    [some 10, none, some 30, some 40] 3 (by decide)
  rw [h.1]
  rfl

/-! ## `newsFetcher.ts`: URL deduplication, relevance scoring and filtering -/

/-- A raw article as fetched from NewsAPI (the fields the pipeline reads). -/
structure RawNewsArticle where
  sourceName : String
  author : Option String
  title : String
  description : String
  url : String
  publishedAt : String
  content : Option String
deriving Repr, DecidableEq

/-- One iteration of the deduplication loop in `fetchNewsScheduledFunction`:
push `article` unless some already-collected article has the same `url`. -/
def addUnique (allNewsArticles : List RawNewsArticle)
    (article : RawNewsArticle) : List RawNewsArticle :=
  if allNewsArticles.any (fun existingArticle => existingArticle.url == article.url)
  then allNewsArticles
  else allNewsArticles ++ [article]

/-- The deduplication loop over the concatenation of all fetched batches
(the per-keyword loops append into one shared `allNewsArticles` array). -/
def collectUnique (articles : List RawNewsArticle) : List RawNewsArticle :=
  articles.foldl addUnique []

theorem addUnique_of_dup {acc : List RawNewsArticle} {a : RawNewsArticle}
    (h : acc.any (fun existingArticle => existingArticle.url == a.url) = true) :
    addUnique acc a = acc := by
  simp [addUnique, h]

theorem addUnique_of_new {acc : List RawNewsArticle} {a : RawNewsArticle}
    (h : acc.any (fun existingArticle => existingArticle.url == a.url) = false) :
    addUnique acc a = acc ++ [a] := by
  simp [addUnique, h]

theorem foldl_addUnique_of_seen (u : String) :
    ∀ (l acc : List RawNewsArticle),
      acc.any (fun e => e.url == u) = true →
      (l.foldl addUnique acc).filter (fun a => a.url == u) =
        acc.filter (fun a => a.url == u) := by
  intro l
  induction l with
  | nil => intro acc _; rfl
  | cons a rest ih =>
    intro acc hseen
    rw [List.foldl_cons]
    cases hdup : acc.any (fun existingArticle => existingArticle.url == a.url) with
    | true =>
      rw [addUnique_of_dup hdup]
      exact ih acc hseen
    | false =>
      rw [addUnique_of_new hdup]
      have hpa : (a.url == u) = false := by
        cases hval : (a.url == u) with
        | false => rfl
        | true =>
          exfalso
          rw [List.any_eq_true] at hseen
          obtain ⟨e, hmem, heq⟩ := hseen
          have : acc.any (fun existingArticle =>
              existingArticle.url == a.url) = true := by
            rw [List.any_eq_true]
            refine ⟨e, hmem, ?_⟩
            rw [eq_of_beq heq, eq_of_beq hval]
            exact beq_self_eq_true u
          rw [hdup] at this
          exact Bool.false_ne_true this
      have hseen' : (acc ++ [a]).any (fun e => e.url == u) = true := by
        simp only [List.any_append, Bool.or_eq_true]
        exact Or.inl hseen
      rw [ih (acc ++ [a]) hseen', List.filter_append]
      simp [List.filter, hpa]

theorem foldl_addUnique_of_unseen (u : String) :
    ∀ (l acc : List RawNewsArticle),
      acc.any (fun e => e.url == u) = false →
      (l.foldl addUnique acc).filter (fun a => a.url == u) =
        acc.filter (fun a => a.url == u) ++
          (l.filter (fun a => a.url == u)).take 1 := by
  intro l
  induction l with
  | nil => intro acc _; simp
  | cons a rest ih =>
    intro acc hunseen
    rw [List.foldl_cons]
    have hacc : acc.filter (fun x => x.url == u) = [] := by
      rw [List.filter_eq_nil]
      intro e hmem hcon
      have : acc.any (fun e => e.url == u) = true := by
        rw [List.any_eq_true]
        exact ⟨e, hmem, hcon⟩
      rw [hunseen] at this
      exact Bool.false_ne_true this
    cases hpa : (a.url == u) with
    | true =>
      have hdup : acc.any
          (fun existingArticle => existingArticle.url == a.url) = false := by
        cases hval : acc.any
            (fun existingArticle => existingArticle.url == a.url) with
        | false => rfl
        | true =>
          exfalso
          rw [List.any_eq_true] at hval
          obtain ⟨e, hmem, heq⟩ := hval
          have : acc.any (fun e => e.url == u) = true := by
            rw [List.any_eq_true]
            refine ⟨e, hmem, ?_⟩
            rw [eq_of_beq heq, eq_of_beq hpa]
            exact beq_self_eq_true u
          rw [hunseen] at this
          exact Bool.false_ne_true this
      rw [addUnique_of_new hdup]
      have hseen' : (acc ++ [a]).any (fun e => e.url == u) = true := by
        simp only [List.any_append, Bool.or_eq_true]
        exact Or.inr (by simp [hpa])
      rw [foldl_addUnique_of_seen u rest (acc ++ [a]) hseen',
        List.filter_append, hacc]
      simp [List.filter, hpa]
    | false =>
      cases hdup : acc.any
          (fun existingArticle => existingArticle.url == a.url) with
      | true =>
        rw [addUnique_of_dup hdup, ih acc hunseen]
        simp [List.filter, hpa]
      | false =>
        rw [addUnique_of_new hdup]
        have hunseen' : (acc ++ [a]).any (fun e => e.url == u) = false := by
          simp only [List.any_append, Bool.or_eq_false_iff]
          exact ⟨hunseen, by simp [hpa]⟩
        rw [ih (acc ++ [a]) hunseen', List.filter_append]
        simp [List.filter, hpa]

end FinPlatform

namespace FinPlatform

/-- C6: the articles collected by the deduplication loop contain, for every
URL, exactly the first-seen article with that URL: the filtered output is
the one-element truncation of the filtered input, so an input holding two
articles with the same URL contributes exactly one (the first-seen) entry. -/
theorem collectUnique_first_seen (l : List RawNewsArticle) (u : String)
    (h : 2 ≤ l.countP (fun a => a.url == u)) :
    (collectUnique l).countP (fun a => a.url == u) = 1 ∧
    (collectUnique l).filter (fun a => a.url == u) =
      (l.filter (fun a => a.url == u)).take 1 := by
  have hfil : (collectUnique l).filter (fun a => a.url == u) =
      (l.filter (fun a => a.url == u)).take 1 := by
    unfold collectUnique
    have := foldl_addUnique_of_unseen u l [] rfl
    simpa using this
  refine ⟨?_, hfil⟩
  rw [List.countP_eq_length_filter, hfil, List.length_take,
    ← List.countP_eq_length_filter]
  omega

/-- Sample fetched article (first-seen holder of its URL). -/
def artA : RawNewsArticle :=
  ⟨"feed", none, "first title", "d1", "https://x/a", "2024-01-01", none⟩

/-- Sample fetched article duplicating `artA`'s URL with another title. -/
def artB : RawNewsArticle :=
  ⟨"feed", none, "second title", "d2", "https://x/a", "2024-01-02", none⟩

/-- C6 witness: two fetched articles share `url = "https://x/a"`; the
deduplicated collection keeps exactly one of them. -/
theorem collectUnique_first_seen_witness :
    (2 ≤ ([artA, artB] : List RawNewsArticle).countP
      (fun a => a.url == "https://x/a")) ∧
    (collectUnique [artA, artB]).countP (fun a => a.url == "https://x/a") = 1 :=
  ⟨by decide,
    (collectUnique_first_seen [artA, artB] "https://x/a" (by decide)).1⟩

end FinPlatform

namespace FinPlatform

/-! ## Character and substring utilities shared by the enrichment passes -/

/-- JavaScript regex word characters `[A-Za-z0-9_]` (the `\b` and `\w`
character class for the ASCII inputs at hand). -/
def isWordChar (c : Char) : Bool :=
  c.isAlphanum || c == '_'

/-- `sub` occurs as a contiguous substring of `hay`
(JavaScript `String.prototype.includes`). -/
def hasSubstr (sub : List Char) : List Char → Bool
  | [] => sub.isEmpty
  | c :: rest => sub.isPrefixOf (c :: rest) || hasSubstr sub rest

/-- There is a `\b`-boundary between the end of a match and `rest`:
either the text ends or the next character is a non-word character. -/
def boundaryOk : List Char → Bool
  | [] => true
  | c :: _ => !isWordChar c

/-- `sym` occurs at the head of `text` followed by a word boundary. -/
def startsWholeWord (sym text : List Char) : Bool :=
  sym.isPrefixOf text && boundaryOk (text.drop sym.length)

/-- Scan of `text` for a whole-word occurrence of `sym`; `prevOk` records
whether a `\b`-boundary precedes the current position (start of text or a
non-word character just consumed). -/
def hasWholeWordFrom (sym : List Char) : Bool → List Char → Bool
  | prevOk, [] => prevOk && startsWholeWord sym []
  | prevOk, c :: rest =>
    (prevOk && startsWholeWord sym (c :: rest)) ||
      hasWholeWordFrom sym (!isWordChar c) rest

/-- Models `new RegExp("\\b" + symbol + "\\b").test(text)` for the
ticker-style symbols at hand (nonempty strings of word characters). -/
def hasWholeWord (sym text : List Char) : Bool :=
  hasWholeWordFrom sym true text

/-- ASCII uppercasing of a string's characters
(JavaScript `toUpperCase` on the ASCII inputs at hand). -/
def upperChars (s : String) : List Char :=
  s.data.map Char.toUpper

/-- ASCII lowercasing (JavaScript `toLowerCase`). -/
def lowerChars (s : String) : List Char :=
  s.data.map Char.toLower

/-! ## `newsFetcher.ts` enrichment: ticker extraction, relevance score,
relevance filter -/

/-- The maximal run of uppercase `[A-Z]` letters at the head of the text. -/
def takeUppers : List Char → List Char
  | [] => []
  | c :: rest => if c.isUpper then c :: takeUppers rest else []

/-- Models the global scan of `/\$([A-Z]{1,5})\b/g` via `matchAll`: at each
`$`, the greedy `[A-Z]{1,5}` followed by `\b` matches exactly when the full
uppercase run after the `$` has length 1..5 and is followed by a
non-word character or the end of text; the captured group is that run.
(Scanning resumes after the matched run; since a run contains no `$`,
restarting right after the `$` visits the same matches.) -/
def scanTickers : List Char → List String
  | [] => []
  | c :: rest =>
    if c == '$' then
      let run := takeUppers rest
      if 1 ≤ run.length && run.length ≤ 5 && boundaryOk (rest.drop run.length)
      then String.mk run :: scanTickers rest
      else scanTickers rest
    else scanTickers rest

/-- `[...new Set(xs)]`: first-occurrence deduplication in insertion order. -/
def dedupFirst (xs : List String) : List String :=
  xs.foldl (fun acc s => if acc.contains s then acc else acc ++ [s]) []

/-- The tickers extracted from an article's
`title + " " + description + " " + (content || "")`. -/
def extractTickers (content : String) : List String :=
  dedupFirst (scanTickers content.data)

/-- An article after the enrichment `map` in `fetchNewsScheduledFunction`:
the spread of the raw article plus sentiment, tickers and relevance. -/
structure EnrichedNewsArticle where
  article : RawNewsArticle
  sentimentScore : ℚ
  tickers : Option (List String)
  relevanceScore : ℚ
deriving Repr, DecidableEq

/-- Embeds the enrichment `map` body of `fetchNewsScheduledFunction`.
`sentimentOf` abstracts `processSentiment` (the external AFINN lexicon
scorer); sentiment plays no role in the relevance logic. -/
def enrichNewsArticle (sentimentOf : String → ℚ) (article : RawNewsArticle) :
    EnrichedNewsArticle :=
  let sentimentScore := sentimentOf (article.title ++ " " ++ article.description)
  let content :=
    article.title ++ " " ++ article.description ++ " " ++ article.content.getD ""
  let tickers := extractTickers content
  let relevanceScore : ℚ :=
    (if hasSubstr "stock".data (lowerChars article.title) then 3/10 else 0) +
    (if hasSubstr "market".data (lowerChars article.title) then 2/10 else 0) +
    (if tickers.length > 0 then 1/2 else 0)
  { article := article
    sentimentScore := sentimentScore
    tickers := if tickers.length > 0 then some tickers else none
    relevanceScore := relevanceScore }

/-- The relevance filter `(article.relevanceScore && article.relevanceScore
>= 0.2) || article.tickers`: number truthiness is `≠ 0`, and a present
tickers array is truthy. -/
def isRelevant (article : EnrichedNewsArticle) : Bool :=
  (decide (article.relevanceScore ≠ 0) &&
    decide ((2/10 : ℚ) ≤ article.relevanceScore)) || article.tickers.isSome

end FinPlatform

namespace FinPlatform

/-- C7: the relevance score of every enriched article is the sum of 0.3 for
"stock" in the lowercased title, 0.2 for "market" in the lowercased title
and 0.5 for a nonempty associated ticker set; and the article passes the
relevance filter exactly when its score is at least 0.2 or it has at least
one associated ticker (the JavaScript truthiness guard on the score adds
nothing, since a score ≥ 0.2 is nonzero). -/
theorem relevance_score_and_filter (sentimentOf : String → ℚ)
    (a : RawNewsArticle) :
    ((enrichNewsArticle sentimentOf a).relevanceScore =
      (if hasSubstr "stock".data (lowerChars a.title) then (3/10 : ℚ) else 0) +
      (if hasSubstr "market".data (lowerChars a.title) then (2/10 : ℚ) else 0) +
      (if (enrichNewsArticle sentimentOf a).tickers.isSome then (1/2 : ℚ) else 0)) ∧
    (isRelevant (enrichNewsArticle sentimentOf a) = true ↔
      ((2/10 : ℚ) ≤ (enrichNewsArticle sentimentOf a).relevanceScore ∨
        (enrichNewsArticle sentimentOf a).tickers.isSome = true)) := by
  constructor
  · show (enrichNewsArticle sentimentOf a).relevanceScore = _
    unfold enrichNewsArticle
    dsimp only
    by_cases ht : (extractTickers (a.title ++ " " ++ a.description ++ " " ++
        a.content.getD "")).length > 0
    · rw [if_pos ht, if_pos ht]
      simp
    · rw [if_neg ht, if_neg ht]
      simp
  · unfold isRelevant
    rw [Bool.or_eq_true, Bool.and_eq_true, decide_eq_true_eq, decide_eq_true_eq]
    constructor
    · rintro (⟨_, hge⟩ | hsome)
      · exact Or.inl hge
      · exact Or.inr hsome
    · rintro (hge | hsome)
      · refine Or.inl ⟨?_, hge⟩
        intro h0
        rw [h0] at hge
        norm_num at hge
      · exact Or.inr hsome

end FinPlatform

namespace FinPlatform

/-! ## The ticker-association module: `identifyStocksInNews` -/

/-- An article as handled by the ticker-association module (`NewsArticle`
with the optional enrichment fields it reads and writes); `publishedAt` is
abstracted to the timestamp that `new Date(...).getTime()` yields. -/
structure StockNewsArticle where
  title : String
  description : String
  url : String
  publishedAt : Int
  sourceName : String
  sentimentScore : Option ℚ
  tickers : Option (List String)
deriving Repr, DecidableEq

/-- `` `${article.title} ${article.description}`.toUpperCase() ``. -/
def searchTextOf (article : StockNewsArticle) : List Char :=
  upperChars (article.title ++ " " ++ article.description)

/-- The fixed company-name → symbol lookup table, in insertion order
(`Object.entries` order for string keys). -/
def companyNames : List (String × String) :=
  [("APPLE", "AAPL"), ("MICROSOFT", "MSFT"), ("AMAZON", "AMZN"),
   ("GOOGLE", "GOOGL"), ("ALPHABET", "GOOGL"), ("FACEBOOK", "META"),
   ("META PLATFORMS", "META"), ("TESLA", "TSLA"), ("NVIDIA", "NVDA")]

/-- The `mentionedStocks` array built per article: first the whole-word
symbol scan over `stockSymbols`, then the company-name substring scan with
its `!mentionedStocks.includes(symbol)` guard. -/
def mentionedStocksOf (stockSymbols : List String)
    (article : StockNewsArticle) : List String :=
  let searchText := searchTextOf article
  let fromSymbols := stockSymbols.foldl
    (fun mentionedStocks symbol =>
      if hasWholeWord symbol.data searchText
      then mentionedStocks ++ [symbol] else mentionedStocks) []
  companyNames.foldl
    (fun mentionedStocks entry =>
      if hasSubstr entry.1.data searchText && !(mentionedStocks.contains entry.2)
      then mentionedStocks ++ [entry.2] else mentionedStocks)
    fromSymbols

/-- Embeds `identifyStocksInNews`: each article is copied, and the copy's
`tickers` is set to `mentionedStocks` when that array is nonempty (an
article with no matches keeps its fields, `tickers` included, unchanged). -/
def identifyStocksInNews (newsArticles : List StockNewsArticle)
    (stockSymbols : List String) : List StockNewsArticle :=
  newsArticles.map (fun article =>
    let mentionedStocks := mentionedStocksOf stockSymbols article
    if mentionedStocks.length > 0
    then { article with tickers := some mentionedStocks }
    else article)

theorem startsWholeWord_append {sym t : List Char} (b : List Char)
    (hs : startsWholeWord sym t = true) :
    startsWholeWord sym (t ++ ' ' :: b) = true := by
  unfold startsWholeWord at hs ⊢
  rw [Bool.and_eq_true] at hs
  obtain ⟨hpre, hbd⟩ := hs
  rw [List.isPrefixOf_iff_prefix] at hpre
  obtain ⟨s, rfl⟩ := hpre
  rw [Bool.and_eq_true]
  constructor
  · rw [List.isPrefixOf_iff_prefix, List.append_assoc]
    exact List.prefix_append sym (s ++ ' ' :: b)
  · rw [List.drop_left' rfl] at hbd
    rw [List.append_assoc, List.drop_left' rfl]
    cases s with
    | nil => rw [List.nil_append]; rfl
    | cons c cs => exact hbd

theorem hasWholeWordFrom_append_left (sym b : List Char) :
    ∀ (t : List Char) (p : Bool),
      hasWholeWordFrom sym p t = true →
      hasWholeWordFrom sym p (t ++ ' ' :: b) = true := by
  intro t
  induction t with
  | nil =>
    intro p h
    rw [hasWholeWordFrom, Bool.and_eq_true] at h
    obtain ⟨hp, hw⟩ := h
    rw [startsWholeWord, Bool.and_eq_true] at hw
    obtain ⟨hpre, _⟩ := hw
    rw [List.isPrefixOf_iff_prefix, List.prefix_nil] at hpre
    subst hpre
    subst hp
    rw [List.nil_append, hasWholeWordFrom]
    apply Bool.or_eq_true_iff.mpr
    left
    rfl
  | cons c rest ih =>
    intro p h
    rw [hasWholeWordFrom, Bool.or_eq_true] at h
    rw [List.cons_append, hasWholeWordFrom, Bool.or_eq_true]
    rcases h with h | h
    · left
      rw [Bool.and_eq_true] at h ⊢
      exact ⟨h.1, by rw [← List.cons_append]; exact startsWholeWord_append b h.2⟩
    · right
      exact ih (!isWordChar c) h

theorem hasWholeWordFrom_append_right (sym b : List Char)
    (h : hasWholeWord sym b = true) :
    ∀ (t : List Char) (p : Bool),
      hasWholeWordFrom sym p (t ++ ' ' :: b) = true := by
  intro t
  induction t with
  | nil =>
    intro p
    rw [List.nil_append, hasWholeWordFrom, Bool.or_eq_true]
    right
    have hsp : (!isWordChar ' ') = true := by decide
    rw [hsp]
    exact h
  | cons c rest ih =>
    intro p
    rw [List.cons_append, hasWholeWordFrom, Bool.or_eq_true]
    right
    exact ih (!isWordChar c)

theorem searchTextOf_decompose (a : StockNewsArticle) :
    searchTextOf a = upperChars a.title ++ ' ' :: upperChars a.description := by
  unfold searchTextOf upperChars
  rw [String.data_append, String.data_append, List.map_append, List.map_append,
    List.append_assoc]
  rfl

theorem count_foldl_push (f : String → Bool) (sym : String) :
    ∀ (syms acc : List String),
      (syms.foldl (fun mentionedStocks symbol =>
          if f symbol then mentionedStocks ++ [symbol] else mentionedStocks)
        acc).count sym =
      acc.count sym + (if f sym = true then syms.count sym else 0) := by
  intro syms
  induction syms with
  | nil => intro acc; simp
  | cons s rest ih =>
    intro acc
    rw [List.foldl_cons]
    by_cases hss : s = sym
    · subst hss
      by_cases hf : f s = true
      · rw [if_pos hf, ih, List.count_append, if_pos hf, if_pos hf]
        simp [List.count_cons]
        omega
      · rw [if_neg hf, ih, if_neg hf, if_neg hf]
    · have hbeq : (s == sym) = false := by
        rw [beq_eq_false_iff_ne]
        exact hss
      by_cases hf : f s = true
      · rw [if_pos hf, ih, List.count_append]
        have hzero : List.count sym [s] = 0 := by
          simp [List.count_cons, hbeq]
        rw [hzero]
        have hcnt : (s :: rest).count sym = rest.count sym := by
          simp [List.count_cons, hbeq]
        rw [hcnt, Nat.add_zero]
      · rw [if_neg hf, ih]
        have hcnt : (s :: rest).count sym = rest.count sym := by
          simp [List.count_cons, hbeq]
        rw [hcnt]

theorem companyFold_of_mem (g : String × String → Bool) (sym : String) :
    ∀ (entries : List (String × String)) (acc : List String), sym ∈ acc →
      sym ∈ entries.foldl (fun mentionedStocks entry =>
          if g entry && !(mentionedStocks.contains entry.2)
          then mentionedStocks ++ [entry.2] else mentionedStocks) acc ∧
      (entries.foldl (fun mentionedStocks entry =>
          if g entry && !(mentionedStocks.contains entry.2)
          then mentionedStocks ++ [entry.2] else mentionedStocks) acc).count sym =
        acc.count sym := by
  intro entries
  induction entries with
  | nil => intro acc hmem; exact ⟨hmem, rfl⟩
  | cons e rest ih =>
    intro acc hmem
    rw [List.foldl_cons]
    by_cases hcond : (g e && !(acc.contains e.2)) = true
    · rw [if_pos hcond]
      have hne : e.2 ≠ sym := by
        intro hcon
        rw [Bool.and_eq_true, Bool.not_eq_true'] at hcond
        have : acc.contains sym = true := List.elem_eq_true_of_mem hmem
        rw [← hcon] at this
        rw [this] at hcond
        exact absurd hcond.2 (by decide)
      have hmem' : sym ∈ acc ++ [e.2] := List.mem_append_left _ hmem
      obtain ⟨h1, h2⟩ := ih (acc ++ [e.2]) hmem'
      refine ⟨h1, ?_⟩
      rw [h2, List.count_append]
      have hzero : List.count sym [e.2] = 0 := by
        simp [List.count_cons, beq_eq_false_iff_ne, hne]
      rw [hzero, Nat.add_zero]
    · rw [if_neg hcond]
      exact ih acc hmem

end FinPlatform

namespace FinPlatform

/-- C10: `identifyStocksInNews` returns one output article per input
article; the output at position `i` agrees with the input at position `i`
on every field except possibly `tickers`, and `tickers` is overwritten
(with the nonempty `mentionedStocks` list) only when at least one symbol
or company name matched — with no match the article is returned unchanged.
Inputs are Lean values, so the input list itself is never mutated. -/
theorem identifyStocks_preserves_input (newsArticles : List StockNewsArticle)
    (stockSymbols : List String) :
    (identifyStocksInNews newsArticles stockSymbols).length =
      newsArticles.length ∧
    (∀ (i : Nat) (a : StockNewsArticle), newsArticles[i]? = some a →
      ∃ out, (identifyStocksInNews newsArticles stockSymbols)[i]? = some out ∧
        out.title = a.title ∧ out.description = a.description ∧
        out.url = a.url ∧ out.publishedAt = a.publishedAt ∧
        out.sourceName = a.sourceName ∧
        out.sentimentScore = a.sentimentScore ∧
        (mentionedStocksOf stockSymbols a = [] → out = a) ∧
        (mentionedStocksOf stockSymbols a ≠ [] →
          out.tickers = some (mentionedStocksOf stockSymbols a))) := by
  constructor
  · unfold identifyStocksInNews
    rw [List.length_map]
  · intro i a hi
    refine ⟨_, by unfold identifyStocksInNews; rw [List.getElem?_map, hi]; rfl, ?_⟩
    dsimp only
    by_cases hm : (mentionedStocksOf stockSymbols a).length > 0
    · rw [if_pos hm]
      refine ⟨rfl, rfl, rfl, rfl, rfl, rfl, ?_, fun _ => rfl⟩
      intro hnil
      rw [hnil] at hm
      simp at hm
    · rw [if_neg hm]
      refine ⟨rfl, rfl, rfl, rfl, rfl, rfl, fun _ => rfl, ?_⟩
      intro hne
      exfalso
      exact hm (List.length_pos.mpr hne)

/-- Sample article whose title mentions AAPL as a whole word. -/
def artS : StockNewsArticle :=
  ⟨"AAPL rallies", "desc", "https://y/s", 0, "feed", none, none⟩

/-- C10 witness: the single-article list `[artS]` with symbol list
`["AAPL"]` instantiates the frame theorem; the match is nonempty, so the
output keeps every field of `artS` except `tickers`. -/
theorem identifyStocks_preserves_input_witness :
    ∃ out, (identifyStocksInNews [artS] ["AAPL"])[0]? = some out ∧
      out.title = artS.title ∧ out.description = artS.description ∧
      out.url = artS.url ∧ out.publishedAt = artS.publishedAt ∧
      out.sourceName = artS.sourceName ∧
      out.sentimentScore = artS.sentimentScore ∧
      (mentionedStocksOf ["AAPL"] artS = [] → out = artS) ∧
      (mentionedStocksOf ["AAPL"] artS ≠ [] →
        out.tickers = some (mentionedStocksOf ["AAPL"] artS)) :=
  (identifyStocks_preserves_input [artS] ["AAPL"]).2 0 artS rfl

end FinPlatform

namespace FinPlatform

/-- C9 counterexample: the claim quantifies over every list of known stock
symbols, but the symbol loop pushes one entry per occurrence in that list;
with the symbol list `["AAPL", "AAPL"]` and an article whose title contains
the whole word `AAPL`, the resulting `tickers` holds `AAPL` twice, not
exactly once. -/
theorem identifyStocks_dup_symbol_cex :
    hasWholeWord "AAPL".data (upperChars artS.title) = true ∧
    (identifyStocksInNews [artS] ["AAPL", "AAPL"]).map
      (fun a => (a.tickers.getD []).count "AAPL") = [2] := by
  constructor
  · decide
  · decide

/-- C9 (amended): if a symbol occurs exactly once in the known-symbols list
and occurs as a whole word in the uppercased title or description of the
article at position `i`, then the corresponding output article carries a
`tickers` list containing that symbol exactly once — however often the text
mentions it and however many company-name lookup entries also map to it. -/
theorem identifyStocks_symbol_once (newsArticles : List StockNewsArticle)
    (stockSymbols : List String) (sym : String) (i : Nat)
    (a : StockNewsArticle)
    (hcount : stockSymbols.count sym = 1)
    (hi : newsArticles[i]? = some a)
    (hword : hasWholeWord sym.data (upperChars a.title) = true ∨
             hasWholeWord sym.data (upperChars a.description) = true) :
    ∃ out l, (identifyStocksInNews newsArticles stockSymbols)[i]? = some out ∧
      out.tickers = some l ∧ l.count sym = 1 := by
  have hmatch : hasWholeWord sym.data (searchTextOf a) = true := by
    rw [searchTextOf_decompose]
    rcases hword with hl | hr
    · exact hasWholeWordFrom_append_left sym.data (upperChars a.description)
        (upperChars a.title) true hl
    · exact hasWholeWordFrom_append_right sym.data (upperChars a.description)
        hr (upperChars a.title) true
  have hm1 : (stockSymbols.foldl
      (fun mentionedStocks symbol =>
        if hasWholeWord symbol.data (searchTextOf a)
        then mentionedStocks ++ [symbol] else mentionedStocks) []).count sym
      = 1 := by
    rw [count_foldl_push (fun symbol => hasWholeWord symbol.data (searchTextOf a))
      sym stockSymbols []]
    rw [List.count_nil, if_pos hmatch, hcount]
  have hmem1 : sym ∈ stockSymbols.foldl
      (fun mentionedStocks symbol =>
        if hasWholeWord symbol.data (searchTextOf a)
        then mentionedStocks ++ [symbol] else mentionedStocks) [] := by
    rw [← List.count_pos_iff, hm1]
    exact Nat.one_pos
  obtain ⟨hmem2, hcnt2⟩ := companyFold_of_mem
    (fun entry => hasSubstr entry.1.data (searchTextOf a)) sym companyNames _ hmem1
  have hm2 : (mentionedStocksOf stockSymbols a).count sym = 1 := by
    unfold mentionedStocksOf
    rw [hcnt2, hm1]
  have hmem2' : sym ∈ mentionedStocksOf stockSymbols a := by
    unfold mentionedStocksOf
    exact hmem2
  have hlen : (mentionedStocksOf stockSymbols a).length > 0 :=
    List.length_pos_of_mem hmem2'
  refine ⟨{ a with tickers := some (mentionedStocksOf stockSymbols a) },
    mentionedStocksOf stockSymbols a, ?_, rfl, hm2⟩
  unfold identifyStocksInNews
  rw [List.getElem?_map, hi, Option.map_some']
  dsimp only
  rw [if_pos hlen]

/-- C9 witness: with the duplicate-free symbol list `["AAPL", "MSFT"]` and
an article whose title contains the whole word `AAPL`, the amended theorem
yields an output ticker list counting `AAPL` exactly once. -/
theorem identifyStocks_symbol_once_witness :
    ∃ out l, (identifyStocksInNews [artS] ["AAPL", "MSFT"])[0]? = some out ∧
      out.tickers = some l ∧ l.count "AAPL" = 1 :=
  identifyStocks_symbol_once [artS] ["AAPL", "MSFT"] "AAPL" 0 artS
    (by decide) rfl (Or.inl (by decide))

end FinPlatform

namespace FinPlatform

/-! ## `sentimentAnalysis.ts`: `enrichStockData` -/

/-- The stock-quote fields that `enrichStockData` and the correlator read. -/
structure StockQuote where
  symbol : String
  price : ℚ
  change : ℚ
  changePercent : String
  volume : ℚ
deriving Repr, DecidableEq

/-- One entry of the trailing `historicalData` window (the fields read:
`volume` and `close`). -/
structure DailyBar where
  volume : ℚ
  close : ℚ
deriving Repr, DecidableEq

/-- The `EnrichedStockData` interface: base quote fields plus the optional
derived metrics (the optional `recentNews` field is never set by
`enrichStockData` and is omitted). -/
structure EnrichedStockData where
  symbol : String
  price : ℚ
  change : ℚ
  changePercent : String
  volume : ℚ
  averageVolume : Option ℚ
  volumeRatio : Option ℚ
  relativeStrength : Option ℚ
  momentum : Option ℚ
deriving Repr, DecidableEq

/-- Embeds `enrichStockData`: derived metrics are added only when
`historicalData` is present and nonempty, and `momentum` additionally
requires at least 10 bars, reading the close at index `length - 10`
(`getD` with an arbitrary default stands for the JavaScript index access,
which the `length ≥ 10` guard keeps in bounds). -/
def enrichStockData (stockData : StockQuote)
    (historicalData : Option (List DailyBar)) : EnrichedStockData :=
  let base : EnrichedStockData :=
    ⟨stockData.symbol, stockData.price, stockData.change,
     stockData.changePercent, stockData.volume, none, none, none, none⟩
  match historicalData with
  | none => base
  | some h =>
    if h.length > 0 then
      let averageVolume : ℚ :=
        ((h.map (fun day => day.volume)).foldl (· + ·) 0) / (h.length : ℚ)
      let averagePrice : ℚ :=
        ((h.map (fun day => day.close)).foldl (· + ·) 0) / (h.length : ℚ)
      let momentum : Option ℚ :=
        if h.length ≥ 10 then
          let priceNow := stockData.price
          let price10DaysAgo := (h.getD (h.length - 10) ⟨0, 0⟩).close
          some ((priceNow - price10DaysAgo) / price10DaysAgo)
        else none
      { base with
        averageVolume := some averageVolume
        volumeRatio := some (stockData.volume / averageVolume)
        relativeStrength := some (stockData.price / averagePrice)
        momentum := momentum }
    else base

end FinPlatform

namespace FinPlatform

/-- C5: `enrichStockData` sets `momentum` exactly when the supplied history
has at least 10 entries, and then its value is
`(price - c) / c` for `c` the close of the bar at index `length - 10`
(the 10th-most-recent bar); without a history no momentum is set. -/
theorem enrichStockData_momentum (q : StockQuote) (h : List DailyBar) :
    ((enrichStockData q (some h)).momentum.isSome ↔ 10 ≤ h.length) ∧
    (∀ hge : 10 ≤ h.length,
      (enrichStockData q (some h)).momentum =
        some ((q.price - (h.get ⟨h.length - 10, by omega⟩).close) /
          (h.get ⟨h.length - 10, by omega⟩).close)) ∧
    (enrichStockData q none).momentum = none := by
  refine ⟨?_, ?_, rfl⟩
  · unfold enrichStockData
    dsimp only
    by_cases hpos : h.length > 0
    · rw [if_pos hpos]
      by_cases hge : h.length ≥ 10
      · rw [if_pos hge]
        simp [hge]
      · rw [if_neg hge]
        simp
        omega
    · rw [if_neg hpos]
      simp
      omega
  · intro hge
    have hpos : h.length > 0 := by omega
    have hlt : h.length - 10 < h.length := by omega
    unfold enrichStockData
    dsimp only
    rw [if_pos hpos, if_pos hge]
    rw [List.getD_eq_getElem?_getD, List.getElem?_eq_getElem hlt]
    rw [List.get_eq_getElem]
    rfl

/-- Sample quote for the momentum witness. -/
def quoteW : StockQuote := ⟨"AAPL", 3, 1, "1%", 5⟩

/-- A ten-bar history whose oldest bar (index `length - 10 = 0`) closes
at 2. -/
def histW : List DailyBar :=
  [⟨1, 2⟩, ⟨1, 4⟩, ⟨1, 4⟩, ⟨1, 4⟩, ⟨1, 4⟩, ⟨1, 4⟩, ⟨1, 4⟩, ⟨1, 4⟩, ⟨1, 4⟩, ⟨1, 4⟩]

/-- C5 witness: with the 10-bar history `histW`, `momentum` is set and
equals `(3 - 2) / 2 = 1/2`. -/
theorem enrichStockData_momentum_witness :
    (10 ≤ histW.length) ∧
    (enrichStockData quoteW (some histW)).momentum = some (1/2) := by
  refine ⟨by decide, ?_⟩
  have hm := (enrichStockData_momentum quoteW histW).2.1 (by decide)
  rw [hm]
  norm_num [histW, quoteW]

end FinPlatform

namespace FinPlatform

/-! ## `sentimentAnalysis.ts`: `correlateNewsWithMarketMovements` -/

/-- The filter of `correlateNewsWithMarketMovements`: an article is relevant
to the quote when its tickers include the symbol, or its title — or, when
present, its description — contains the symbol as a substring. -/
def relevantNews (stockData : StockQuote)
    (newsData : List StockNewsArticle) : List StockNewsArticle :=
  newsData.filter (fun article =>
    (match article.tickers with
     | some tickers => tickers.contains stockData.symbol
     | none => false) ||
    hasSubstr stockData.symbol.data article.title.data ||
    hasSubstr stockData.symbol.data article.description.data)

/-- `relevantNews.sort((a, b) => dateB - dateA)`: stable sort by
`publishedAt` descending (newest first); JavaScript's `sort` is stable, as
is `mergeSort`, so they produce the same list. -/
def sortNewestFirst (articles : List StockNewsArticle) : List StockNewsArticle :=
  articles.mergeSort (fun a b => decide (b.publishedAt ≤ a.publishedAt))

/-- An output entry of the correlator: the spread of the article plus the
`possibleImpact` tag and the `impactScore`. -/
structure ScoredArticle where
  article : StockNewsArticle
  possibleImpact : String
  impactScore : ℚ
deriving Repr, DecidableEq

/-- The `map` body of `correlateNewsWithMarketMovements`:
`articleSentiment = article.sentimentScore || 0`, alignment of strict signs,
and `impactScore = |articleSentiment| * |stockData.change|`. -/
def scoreArticle (stockData : StockQuote)
    (article : StockNewsArticle) : ScoredArticle :=
  let articleSentiment := article.sentimentScore.getD 0
  let sentimentPriceAlignment :=
    (decide (articleSentiment > 0) && decide (stockData.change > 0)) ||
    (decide (articleSentiment < 0) && decide (stockData.change < 0))
  { article := article
    possibleImpact := if sentimentPriceAlignment then "aligned" else "contrary"
    impactScore := |articleSentiment| * |stockData.change| }

/-- The correlator's return value. -/
structure CorrelationResult where
  newsImpact : ℚ
  significantArticles : List ScoredArticle
deriving Repr, DecidableEq

/-- Embeds `correlateNewsWithMarketMovements`: filter to the relevant
articles, sort newest-first, score each, average the impact scores
(0 on an empty list), and return the first five scored entries
(`slice(0, 5)` of the recency-sorted list). -/
def correlateNewsWithMarketMovements (stockData : StockQuote)
    (newsData : List StockNewsArticle) : CorrelationResult :=
  let relevant := relevantNews stockData newsData
  let significantArticles := (sortNewestFirst relevant).map (scoreArticle stockData)
  let newsImpact : ℚ :=
    if significantArticles.length > 0 then
      (significantArticles.foldl (fun sum article => sum + article.impactScore) 0) /
        (significantArticles.length : ℚ)
    else 0
  { newsImpact := newsImpact
    significantArticles := significantArticles.take 5 }

theorem foldl_add_impactScore (l : List ScoredArticle) :
    ∀ c : ℚ, l.foldl (fun sum article => sum + article.impactScore) c =
      c + (l.map (fun e => e.impactScore)).sum := by
  induction l with
  | nil => intro c; simp
  | cons e rest ih =>
    intro c
    rw [List.foldl_cons, ih, List.map_cons, List.sum_cons]
    ring

end FinPlatform

namespace FinPlatform

/-- C8: the correlator's `newsImpact` is 0 when no article is relevant and
otherwise the arithmetic mean of `|sentiment| * |change|` over the relevant
articles; every returned entry's `impactScore` is `|sentiment| * |change|`
of its own article and quote, and it is tagged `"aligned"` exactly when
sentiment and change are both strictly positive or both strictly negative,
`"contrary"` otherwise. -/
theorem correlate_newsImpact_mean (q : StockQuote)
    (news : List StockNewsArticle) :
    ((correlateNewsWithMarketMovements q news).newsImpact =
      if relevantNews q news = [] then 0
      else ((relevantNews q news).map
          (fun a => |a.sentimentScore.getD 0| * |q.change|)).sum /
        ((relevantNews q news).length : ℚ)) ∧
    (∀ e ∈ (correlateNewsWithMarketMovements q news).significantArticles,
      e.impactScore = |e.article.sentimentScore.getD 0| * |q.change| ∧
      (e.possibleImpact = "aligned" ↔
        ((0 < e.article.sentimentScore.getD 0 ∧ 0 < q.change) ∨
         (e.article.sentimentScore.getD 0 < 0 ∧ q.change < 0))) ∧
      (e.possibleImpact = "aligned" ∨ e.possibleImpact = "contrary")) ∧
    (∀ a ∈ relevantNews q news,
      (scoreArticle q a).impactScore = |a.sentimentScore.getD 0| * |q.change|) := by
  have hperm : List.Perm (sortNewestFirst (relevantNews q news))
      (relevantNews q news) :=
    List.mergeSort_perm (relevantNews q news) _
  refine ⟨?_, ?_, fun a _ => rfl⟩
  · unfold correlateNewsWithMarketMovements
    dsimp only
    by_cases hrel : relevantNews q news = []
    · rw [if_pos hrel]
      have hs : sortNewestFirst (relevantNews q news) = [] := by
        rw [hrel]
        unfold sortNewestFirst
        simp
      rw [hs]
      simp
    · rw [if_neg hrel]
      have hlen : ((sortNewestFirst (relevantNews q news)).map
          (scoreArticle q)).length = (relevantNews q news).length := by
        rw [List.length_map]
        exact hperm.length_eq
      have hpos : 0 < ((sortNewestFirst (relevantNews q news)).map
          (scoreArticle q)).length := by
        rw [hlen]
        exact List.length_pos.mpr hrel
      rw [if_pos hpos, foldl_add_impactScore, zero_add, hlen]
      have hsum : (((sortNewestFirst (relevantNews q news)).map
            (scoreArticle q)).map (fun e => e.impactScore)).sum =
          ((relevantNews q news).map
            (fun a => |a.sentimentScore.getD 0| * |q.change|)).sum := by
        rw [List.map_map]
        exact List.Perm.sum_eq (hperm.map _)
      rw [hsum]
  · intro e hmem
    have hmem' : e ∈ (sortNewestFirst (relevantNews q news)).map
        (scoreArticle q) := by
      unfold correlateNewsWithMarketMovements at hmem
      dsimp only at hmem
      exact List.mem_of_mem_take hmem
    rw [List.mem_map] at hmem'
    obtain ⟨a, _, rfl⟩ := hmem'
    refine ⟨rfl, ?_, ?_⟩
    · unfold scoreArticle
      dsimp only
      by_cases halign :
          ((decide (a.sentimentScore.getD 0 > 0) && decide (q.change > 0)) ||
           (decide (a.sentimentScore.getD 0 < 0) && decide (q.change < 0))) = true
      · rw [if_pos halign]
        simp only [Bool.or_eq_true, Bool.and_eq_true, decide_eq_true_eq] at halign
        constructor
        · intro _
          exact halign
        · intro _
          rfl
      · rw [if_neg halign]
        simp only [Bool.or_eq_true, Bool.and_eq_true, decide_eq_true_eq] at halign
        constructor
        · intro hc
          exact absurd hc (by decide)
        · intro hc
          exact absurd hc halign
    · unfold scoreArticle
      dsimp only
      by_cases halign :
          ((decide (a.sentimentScore.getD 0 > 0) && decide (q.change > 0)) ||
           (decide (a.sentimentScore.getD 0 < 0) && decide (q.change < 0))) = true
      · rw [if_pos halign]
        exact Or.inl rfl
      · rw [if_neg halign]
        exact Or.inr rfl

/-- Sample quote for the correlator witnesses: `change = -1.5`. -/
def qW8 : StockQuote := ⟨"AAPL", 10, -(3/2), "-1.5%", 0⟩

/-- Sample relevant article with `sentimentScore = -0.4`. -/
def artW8 : StockNewsArticle :=
  ⟨"AAPL slips", "d", "w8", 1, "feed", some (-(2/5)), some ["AAPL"]⟩

/-- C8 witness: one relevant article with sentiment −0.4 against a change
of −1.5 yields `newsImpact = 0.6` and a single `"aligned"` entry with
`impactScore = 0.6`. -/
theorem correlate_newsImpact_mean_witness :
    (correlateNewsWithMarketMovements qW8 [artW8]).newsImpact = 3/5 ∧
    ∃ e, e ∈ (correlateNewsWithMarketMovements qW8 [artW8]).significantArticles ∧
      e.impactScore = 3/5 ∧ e.possibleImpact = "aligned" := by
  have h := correlate_newsImpact_mean qW8 [artW8]
  have hrel : relevantNews qW8 [artW8] = [artW8] := rfl
  have hsort : sortNewestFirst (relevantNews qW8 [artW8]) = [artW8] := by
    rw [hrel]
    unfold sortNewestFirst
    exact List.mergeSort_of_sorted (List.pairwise_singleton _ _)
  have hsig : (correlateNewsWithMarketMovements qW8 [artW8]).significantArticles =
      [scoreArticle qW8 artW8] := by
    unfold correlateNewsWithMarketMovements
    dsimp only
    rw [hsort]
    rfl
  have hmem : scoreArticle qW8 artW8 ∈
      (correlateNewsWithMarketMovements qW8 [artW8]).significantArticles := by
    rw [hsig]
    exact List.mem_singleton_self _
  have habs : |(2/5 : ℚ)| * |(3/2 : ℚ)| = 3/5 := by
    rw [abs_of_pos (by norm_num : (0:ℚ) < 2/5),
      abs_of_pos (by norm_num : (0:ℚ) < 3/2)]
    norm_num
  constructor
  · rw [h.1, hrel]
    norm_num [artW8, qW8]
    exact habs
  · refine ⟨scoreArticle qW8 artW8, hmem, ?_, ?_⟩
    · rw [(h.2.1 (scoreArticle qW8 artW8) hmem).1]
      norm_num [scoreArticle, artW8, qW8]
      exact habs
    · exact ((h.2.1 (scoreArticle qW8 artW8) hmem).2.1).mpr
        (Or.inr ⟨by norm_num [scoreArticle, artW8], by norm_num [qW8]⟩)

end FinPlatform

namespace FinPlatform

/-- C1 (amended): `significantArticles` is the 5-element truncation of the
newest-first (by `publishedAt`) sorted, scored, relevant articles — the five
*newest* relevant entries (all of them when fewer than 5 are relevant),
not the five with the highest `impactScore`; it is sorted by recency, its
length is `min 5 (number of relevant articles)`, and each entry is the
scoring of a relevant article. -/
theorem correlate_significant_by_recency (q : StockQuote)
    (news : List StockNewsArticle) :
    (correlateNewsWithMarketMovements q news).significantArticles =
      ((sortNewestFirst (relevantNews q news)).map (scoreArticle q)).take 5 ∧
    (correlateNewsWithMarketMovements q news).significantArticles.length =
      min 5 (relevantNews q news).length ∧
    List.Pairwise (fun e f => f.article.publishedAt ≤ e.article.publishedAt)
      (correlateNewsWithMarketMovements q news).significantArticles ∧
    (∀ e ∈ (correlateNewsWithMarketMovements q news).significantArticles,
      e.article ∈ relevantNews q news ∧ e = scoreArticle q e.article) := by
  have hperm : List.Perm (sortNewestFirst (relevantNews q news))
      (relevantNews q news) :=
    List.mergeSort_perm (relevantNews q news) _
  have heq : (correlateNewsWithMarketMovements q news).significantArticles =
      ((sortNewestFirst (relevantNews q news)).map (scoreArticle q)).take 5 := by
    unfold correlateNewsWithMarketMovements
    dsimp only
  refine ⟨heq, ?_, ?_, ?_⟩
  · rw [heq, List.length_take, List.length_map, hperm.length_eq]
  · rw [heq]
    have hsorted : List.Pairwise
        (fun a b : StockNewsArticle => b.publishedAt ≤ a.publishedAt)
        (sortNewestFirst (relevantNews q news)) := by
      have h := @List.sorted_mergeSort StockNewsArticle
        (fun a b : StockNewsArticle => decide (b.publishedAt ≤ a.publishedAt))
        (fun a b c hab hbc => by
          rw [decide_eq_true_eq] at *
          omega)
        (fun a b => by
          rcases Int.le_total b.publishedAt a.publishedAt with h | h <;>
            simp [h])
        (relevantNews q news)
      exact h.imp (fun hab => by rwa [decide_eq_true_eq] at hab)
    have hmap : List.Pairwise
        (fun e f : ScoredArticle => f.article.publishedAt ≤ e.article.publishedAt)
        ((sortNewestFirst (relevantNews q news)).map (scoreArticle q)) := by
      rw [List.pairwise_map]
      exact hsorted.imp (fun hab => hab)
    exact hmap.sublist (List.take_sublist 5 _)
  · intro e hmem
    rw [heq] at hmem
    have hmem' := List.mem_of_mem_take hmem
    rw [List.mem_map] at hmem'
    obtain ⟨a, ha, rfl⟩ := hmem'
    exact ⟨hperm.mem_iff.mp ha, rfl⟩

/-- C1 witness: with a single relevant article the truncation keeps it:
the output length is `min 5 1 = 1` and the sole entry is the scoring of
that relevant article. -/
theorem correlate_significant_by_recency_witness :
    (correlateNewsWithMarketMovements qW8 [artW8]).significantArticles.length =
      min 5 (relevantNews qW8 [artW8]).length ∧
    (scoreArticle qW8 artW8).article ∈ relevantNews qW8 [artW8] ∧
    scoreArticle qW8 artW8 = scoreArticle qW8 (scoreArticle qW8 artW8).article := by
  have h := correlate_significant_by_recency qW8 [artW8]
  have hrel : relevantNews qW8 [artW8] = [artW8] := rfl
  have hsort : sortNewestFirst (relevantNews qW8 [artW8]) = [artW8] := by
    rw [hrel]
    unfold sortNewestFirst
    exact List.mergeSort_of_sorted (List.pairwise_singleton _ _)
  have hmem : scoreArticle qW8 artW8 ∈
      (correlateNewsWithMarketMovements qW8 [artW8]).significantArticles := by
    rw [h.1, hsort]
    exact List.mem_singleton_self _
  obtain ⟨h1, h2⟩ := h.2.2.2 (scoreArticle qW8 artW8) hmem
  exact ⟨h.2.1, h1, h2⟩

/-- The oldest article of the C1 counterexample: published earliest but
carrying the largest would-be impact (sentiment 1). -/
def artOldCex : StockNewsArticle :=
  ⟨"old but big", "d", "u6", 1, "feed", some 1, some ["AAPL"]⟩

/-- Six relevant articles, newest first; the five newest have sentiment 0,
the oldest (`artOldCex`) has sentiment 1. -/
def artsCex : List StockNewsArticle :=
  [⟨"fresh news 1", "d", "u1", 6, "feed", some 0, some ["AAPL"]⟩,
   ⟨"fresh news 2", "d", "u2", 5, "feed", some 0, some ["AAPL"]⟩,
   ⟨"fresh news 3", "d", "u3", 4, "feed", some 0, some ["AAPL"]⟩,
   ⟨"fresh news 4", "d", "u4", 3, "feed", some 0, some ["AAPL"]⟩,
   ⟨"fresh news 5", "d", "u5", 2, "feed", some 0, some ["AAPL"]⟩,
   artOldCex]

/-- Quote for the C1 counterexample: `change = 1`. -/
def qCex : StockQuote := ⟨"AAPL", 10, 1, "1%", 0⟩

/-- C1 counterexample: all six articles are relevant and the oldest would
score `impactScore = 1` — strictly above the five returned entries, whose
scores are all 0 — yet it is absent from `significantArticles`: the
truncation keeps the five *newest*, not the five highest-impact, entries. -/
theorem correlate_top5_cex :
    (relevantNews qCex artsCex).length = 6 ∧
    artOldCex ∈ relevantNews qCex artsCex ∧
    (scoreArticle qCex artOldCex).impactScore = 1 ∧
    ((correlateNewsWithMarketMovements qCex artsCex).significantArticles.map
      (fun e => e.impactScore)) = [0, 0, 0, 0, 0] ∧
    ((correlateNewsWithMarketMovements qCex artsCex).significantArticles.all
      (fun e => e.article.url != artOldCex.url)) = true := by
  have hrel : relevantNews qCex artsCex = artsCex := rfl
  have hpair : List.Pairwise
      (fun a b : StockNewsArticle =>
        decide (b.publishedAt ≤ a.publishedAt) = true) artsCex := by
    decide
  have hsort : sortNewestFirst (relevantNews qCex artsCex) = artsCex := by
    rw [hrel]
    unfold sortNewestFirst
    exact List.mergeSort_of_sorted hpair
  have hsig : (correlateNewsWithMarketMovements qCex artsCex).significantArticles =
      (artsCex.map (scoreArticle qCex)).take 5 := by
    unfold correlateNewsWithMarketMovements
    dsimp only
    rw [hsort]
  refine ⟨by rw [hrel]; rfl, ?_, ?_, ?_, ?_⟩
  · rw [hrel]
    unfold artsCex
    simp
  · norm_num [scoreArticle, artOldCex, qCex]
  · rw [hsig]
    norm_num [scoreArticle, artsCex, artOldCex, qCex]
  · rw [hsig]
    decide

end FinPlatform




